import Mathlib

/-!
Verification of the UDP transparent-redirect relay (`src/relay/udprelay/redir_local.rs`).

Strings are modelled as `List Char`; byte buffers as `List Nat`.
-/

namespace RedirLocal

/-! ### Digit formatting, as done by the standard integer formatter -/

/-- Digit-to-character table of the standard formatter (lowercase hex). -/
def digitCh : Nat → Char
  | 0 => '0' | 1 => '1' | 2 => '2' | 3 => '3' | 4 => '4'
  | 5 => '5' | 6 => '6' | 7 => '7' | 8 => '8' | 9 => '9'
  | 10 => 'a' | 11 => 'b' | 12 => 'c' | 13 => 'd' | 14 => 'e' | 15 => 'f'
  | _ => '?'

/-- Numeric value of a digit character (junk value 0 on non-digits). -/
def charVal (c : Char) : Nat :=
  if '0' ≤ c ∧ c ≤ '9' then c.toNat - 48
  else if 'a' ≤ c ∧ c ≤ 'f' then c.toNat - 87
  else 0

/-- Big-endian digit string of `n` in base `b`, no leading zeros, `"0"` for zero. -/
def digitsBE (b n : Nat) : List Char :=
  if n = 0 then ['0'] else (Nat.digits b n).reverse.map digitCh

def decChars (n : Nat) : List Char := digitsBE 10 n

def hexChars (n : Nat) : List Char := digitsBE 16 n

/-- Parse a big-endian digit string in base `b` (total; junk on junk). -/
def parseNat (b : Nat) (cs : List Char) : Nat :=
  cs.foldl (fun a c => a * b + charVal c) 0

theorem charVal_digitCh : ∀ d < 16, charVal (digitCh d) = d := by decide

theorem digitCh_ne : ∀ d < 16, digitCh d ≠ ':' ∧ digitCh d ≠ '.' ∧ digitCh d ≠ '-'
    ∧ digitCh d ≠ '[' ∧ digitCh d ≠ ']' := by decide

theorem foldl_digits_reverse (b acc : Nat) (ds : List Nat) (h : ∀ d ∈ ds, d < 16) :
    (ds.reverse.map digitCh).foldl (fun a c => a * b + charVal c) acc
      = acc * b ^ ds.length + Nat.ofDigits b ds := by
  induction ds generalizing acc with
  | nil => simp [Nat.ofDigits_nil]
  | cons d t ih =>
    have hd : d < 16 := h d (List.mem_cons_self d t)
    have ht : ∀ x ∈ t, x < 16 := fun x hx => h x (List.mem_cons_of_mem d hx)
    simp only [List.reverse_cons, List.map_append, List.foldl_append, List.map_cons,
      List.map_nil, List.foldl_cons, List.foldl_nil, ih acc ht, Nat.ofDigits_cons,
      List.length_cons, charVal_digitCh d hd]
    ring

theorem parseNat_digitsBE {b : Nat} (hb2 : 2 ≤ b) (hb16 : b ≤ 16) (n : Nat) :
    parseNat b (digitsBE b n) = n := by
  unfold parseNat digitsBE
  by_cases h0 : n = 0
  · subst h0
    simp [charVal]
  · simp only [h0, if_false]
    have h : ∀ d ∈ Nat.digits b n, d < 16 := fun d hd =>
      lt_of_lt_of_le (Nat.digits_lt_base hb2 hd) hb16
    rw [foldl_digits_reverse b 0 _ h]
    simp [Nat.ofDigits_digits]

theorem mem_digitsBE {b n : Nat} (hb2 : 2 ≤ b) (hb : b ≤ 16) {c : Char}
    (hc : c ∈ digitsBE b n) : ∃ d, d < 16 ∧ c = digitCh d := by
  unfold digitsBE at hc
  by_cases h0 : n = 0
  · simp only [h0, if_true] at hc
    rcases List.mem_singleton.mp hc with rfl
    exact ⟨0, by norm_num, rfl⟩
  · simp only [h0, if_false, List.mem_map, List.mem_reverse] at hc
    rcases hc with ⟨d, hd, rfl⟩
    exact ⟨d, lt_of_lt_of_le (Nat.digits_lt_base hb2 hd) hb, rfl⟩

theorem digitsBE_ne_nil (b n : Nat) : digitsBE b n ≠ [] := by
  unfold digitsBE
  by_cases h0 : n = 0
  · simp [h0]
  · simp only [h0, if_false, ne_eq, List.map_eq_nil_iff, List.reverse_eq_nil_iff]
    exact Nat.digits_ne_nil_iff_ne_zero.mpr h0

theorem not_mem_digitsBE {b n : Nat} (hb2 : 2 ≤ b) (hb : b ≤ 16) {c : Char}
    (hc : c = ':' ∨ c = '.' ∨ c = '-' ∨ c = '[' ∨ c = ']') : c ∉ digitsBE b n := by
  intro hmem
  rcases mem_digitsBE hb2 hb hmem with ⟨d, hd, rfl⟩
  have h := digitCh_ne d hd
  rcases hc with h1 | h1 | h1 | h1 | h1 <;> simp_all

/-! ### Splitting a character list at the first `"::"` -/

/-- Does the list contain two adjacent colons? -/
def hasCC : List Char → Bool
  | [] => false
  | c :: rest => (c == ':' && rest.head? == some ':') || hasCC rest

/-- Split at the first occurrence of two adjacent colons, if any. -/
def splitCC : List Char → Option (List Char × List Char)
  | [] => none
  | c :: rest =>
    if c = ':' ∧ rest.head? = some ':' then some ([], rest.tail)
    else (splitCC rest).map (fun p => (c :: p.1, p.2))

theorem splitCC_eq_none {cs : List Char} (h : hasCC cs = false) : splitCC cs = none := by
  induction cs with
  | nil => rfl
  | cons c rest ih =>
    simp only [hasCC, Bool.or_eq_false_iff, Bool.and_eq_false_iff] at h
    obtain ⟨h1, h2⟩ := h
    have hcond : ¬(c = ':' ∧ rest.head? = some ':') := by
      rintro ⟨rfl, hh⟩
      simp [hh] at h1
    simp [splitCC, hcond, ih h2]

theorem splitCC_append {x y : List Char} (h : hasCC (x ++ [':']) = false) :
    splitCC (x ++ ':' :: ':' :: y) = some (x, y) := by
  induction x with
  | nil => simp [splitCC]
  | cons c x ih =>
    simp only [List.cons_append, hasCC, Bool.or_eq_false_iff, Bool.and_eq_false_iff] at h
    obtain ⟨h1, h2⟩ := h
    have hcond : ¬(c = ':' ∧ (x ++ ':' :: ':' :: y).head? = some ':') := by
      rintro ⟨rfl, hh⟩
      cases x with
      | nil => simp at h1
      | cons d t => simp_all
    simp only [List.cons_append, splitCC, List.append_eq]
    rw [if_neg hcond, ih h2]
    rfl

theorem hasCC_append_left {p rest : List Char} (hp : ':' ∉ p) :
    hasCC (p ++ rest) = hasCC rest := by
  induction p with
  | nil => rfl
  | cons c q ih =>
    have hc : c ≠ ':' := fun hh => hp (hh ▸ List.mem_cons_self c q)
    have hq : ':' ∉ q := fun hh => hp (List.mem_cons_of_mem c hh)
    simp [hasCC, hc, ih hq]

theorem hasCC_cons_colon {rest : List Char} (h : rest.head? ≠ some ':') :
    hasCC (':' :: rest) = hasCC rest := by
  simp [hasCC, h]

theorem hasCC_prefix {x y : List Char} (h : hasCC (x ++ y) = false) : hasCC x = false := by
  induction x with
  | nil => rfl
  | cons c t ih =>
    simp only [List.cons_append, hasCC, Bool.or_eq_false_iff, Bool.and_eq_false_iff] at h ⊢
    obtain ⟨h1, h2⟩ := h
    refine ⟨?_, ih h2⟩
    cases t with
    | nil => simp
    | cons d t2 => simp_all

/-! ### Joining groups with single colons -/

theorem intercalate_cons_cons {α : Type} (sep : List α) (p q : List α) (t : List (List α)) :
    List.intercalate sep (p :: q :: t) = p ++ sep ++ List.intercalate sep (q :: t) := by
  simp [List.intercalate, List.intersperse_cons_cons]

theorem intercalate_single {α : Type} (sep : List α) (p : List α) :
    List.intercalate sep [p] = p := by
  simp [List.intercalate]

theorem intercalate_head {α : Type} (sep : List α) (p : List α) (t : List (List α)) :
    ∃ r, List.intercalate sep (p :: t) = p ++ r := by
  cases t with
  | nil => exact ⟨[], by simp [intercalate_single]⟩
  | cons q t2 => exact ⟨sep ++ List.intercalate sep (q :: t2), by
      rw [intercalate_cons_cons]; simp⟩

theorem head?_append_of_ne_nil {α : Type} {p : List α} (r : List α) (h : p ≠ []) :
    (p ++ r).head? = p.head? := by
  cases p with
  | nil => exact absurd rfl h
  | cons c t => rfl

theorem hasCC_join_colon (parts : List (List Char)) (hne : ∀ p ∈ parts, p ≠ [])
    (hcf : ∀ p ∈ parts, ':' ∉ p) :
    hasCC (List.intercalate [':'] parts ++ [':']) = false := by
  induction parts with
  | nil => decide
  | cons p ps ih =>
    have hpne : p ≠ [] := hne p (List.mem_cons_self p ps)
    have hpcf : ':' ∉ p := hcf p (List.mem_cons_self p ps)
    cases ps with
    | nil =>
      rw [intercalate_single, hasCC_append_left hpcf]
      decide
    | cons q ps2 =>
      have hqne : q ≠ [] := hne q (by simp)
      have hqcf : ':' ∉ q := hcf q (by simp)
      rw [intercalate_cons_cons]
      have hrw : p ++ [':'] ++ List.intercalate [':'] (q :: ps2) ++ [':']
          = p ++ (':' :: (List.intercalate [':'] (q :: ps2) ++ [':'])) := by simp
      rw [hrw, hasCC_append_left hpcf]
      obtain ⟨r, hr⟩ := intercalate_head [':'] q ps2
      have hhd : (List.intercalate [':'] (q :: ps2) ++ [':']).head? ≠ some ':' := by
        rw [hr]
        have : (q ++ r ++ [':']).head? = q.head? := by
          rw [List.append_assoc]
          exact head?_append_of_ne_nil _ hqne
        rw [this]
        cases q with
        | nil => exact absurd rfl hqne
        | cons c t =>
          have hc : c ≠ ':' := fun hh => hqcf (hh ▸ List.mem_cons_self c t)
          simpa using hc
      rw [hasCC_cons_colon hhd]
      exact ih (fun x hx => hne x (List.mem_cons_of_mem p hx))
        (fun x hx => hcf x (List.mem_cons_of_mem p hx))

theorem hasCC_join_colon' (parts : List (List Char)) (hne : ∀ p ∈ parts, p ≠ [])
    (hcf : ∀ p ∈ parts, ':' ∉ p) :
    hasCC (List.intercalate [':'] parts) = false :=
  hasCC_prefix (hasCC_join_colon parts hne hcf)

theorem mem_intercalate {α : Type} {c : α} {sep : List α} {parts : List (List α)}
    (h : c ∈ List.intercalate sep parts) : c ∈ sep ∨ ∃ p ∈ parts, c ∈ p := by
  induction parts with
  | nil => simp [List.intercalate] at h
  | cons p ps ih =>
    cases ps with
    | nil =>
      rw [intercalate_single] at h
      exact Or.inr ⟨p, by simp, h⟩
    | cons q ps2 =>
      rw [intercalate_cons_cons] at h
      rcases List.mem_append.mp h with h1 | h2
      · rcases List.mem_append.mp h1 with h3 | h4
        · exact Or.inr ⟨p, by simp, h3⟩
        · exact Or.inl h4
      · rcases ih h2 with h3 | ⟨x, hx, hcx⟩
        · exact Or.inl h3
        · exact Or.inr ⟨x, List.mem_cons_of_mem p hx, hcx⟩

/-! ### IPv6 group display with zero-run compression (standard formatter) -/

/-- Length of the zero run starting at index `i`. -/
def zlen (s : List Nat) (i : Nat) : Nat := ((s.drop i).takeWhile (· == 0)).length

/-- Start and length of the first longest run of zero groups, as the standard
formatter selects it. -/
def bestZeroRun (s : List Nat) : Nat × Nat :=
  (List.range s.length).foldl
    (fun best i => if zlen s i > best.2 then (i, zlen s i) else best) (0, 0)

theorem bestZeroRun_spec (s : List Nat) (hbig : 2 ≤ (bestZeroRun s).2) :
    (bestZeroRun s).2 = zlen s (bestZeroRun s).1 := by
  unfold bestZeroRun at hbig ⊢
  have key : ∀ (l : List Nat) (init : Nat × Nat),
      (init = (0, 0) ∨ init.2 = zlen s init.1) →
      (l.foldl (fun best i => if zlen s i > best.2 then (i, zlen s i) else best) init = (0, 0)
        ∨ (l.foldl (fun best i => if zlen s i > best.2 then (i, zlen s i) else best) init).2
          = zlen s (l.foldl (fun best i => if zlen s i > best.2 then (i, zlen s i) else best)
              init).1) := by
    intro l
    induction l with
    | nil =>
      intro init h
      simpa using h
    | cons i t ih =>
      intro init h
      simp only [List.foldl_cons]
      apply ih
      by_cases hgt : zlen s i > init.2
      · right
        rw [if_pos hgt]
      · rw [if_neg hgt]
        exact h
  rcases key (List.range s.length) (0, 0) (Or.inl rfl) with h | h
  · rw [h] at hbig
    simp at hbig
  · exact h

/-- Every position decomposes the list around its zero run. -/
theorem zlen_decomp (s : List Nat) (i : Nat) :
    s = s.take i ++ List.replicate (zlen s i) 0 ++ s.drop (i + zlen s i) := by
  have hrep : List.takeWhile (fun x => x == 0) (s.drop i) = List.replicate (zlen s i) 0 := by
    apply List.eq_replicate_of_mem
    intro x hx
    have := List.mem_takeWhile_imp hx
    simpa using this
  have h2 : s.drop (i + zlen s i) = List.dropWhile (fun x => x == 0) (s.drop i) := by
    have hdd : s.drop (i + zlen s i) = (s.drop i).drop (zlen s i) := by
      rw [List.drop_drop, Nat.add_comm]
    rw [hdd]
    conv_lhs => rw [← List.takeWhile_append_dropWhile (p := fun x => x == 0) (l := s.drop i)]
    have hlen : zlen s i = (List.takeWhile (fun x => x == 0) (s.drop i)).length := rfl
    rw [hlen, List.drop_left]
  rw [← hrep, h2, List.append_assoc, List.takeWhile_append_dropWhile, List.take_append_drop]

/-- Dotted-quad rendering of two 16-bit groups embedded as an IPv4 address. -/
def v4Embedded (g h : Nat) : List Char :=
  List.intercalate ['.']
    [decChars (g / 256), decChars (g % 256), decChars (h / 256), decChars (h % 256)]

/-- General IPv6 rendering: the first longest run of at least two zero groups is
compressed to `::`, otherwise all eight groups are written in hex. -/
def v6Fallback (s : List Nat) : List Char :=
  if 2 ≤ (bestZeroRun s).2 then
    List.intercalate [':'] ((s.take (bestZeroRun s).1).map hexChars) ++ ':' :: ':' ::
      List.intercalate [':'] ((s.drop ((bestZeroRun s).1 + (bestZeroRun s).2)).map hexChars)
  else
    List.intercalate [':'] (s.map hexChars)

/-- IPv6 display of the standard formatter: special forms for the unspecified
address, loopback, IPv4-compatible and IPv4-mapped addresses, otherwise
zero-run compression. -/
def displayIpv6 (s0 s1 s2 s3 s4 s5 s6 s7 : Nat) : List Char :=
  if s0 = 0 ∧ s1 = 0 ∧ s2 = 0 ∧ s3 = 0 ∧ s4 = 0 ∧ s5 = 0 then
    if s6 = 0 ∧ s7 = 0 then [':', ':']
    else if s6 = 0 ∧ s7 = 1 then [':', ':', '1']
    else ':' :: ':' :: v4Embedded s6 s7
  else if s0 = 0 ∧ s1 = 0 ∧ s2 = 0 ∧ s3 = 0 ∧ s4 = 0 ∧ s5 = 65535 then
    ':' :: ':' :: 'f' :: 'f' :: 'f' :: 'f' :: ':' :: v4Embedded s6 s7
  else v6Fallback [s0, s1, s2, s3, s4, s5, s6, s7]

/-! ### Parsing the IPv6 rendering back (total functions, junk on junk) -/

def parseQuad (p : List Char) : List Nat :=
  match p.splitOn '.' with
  | [a, b, c, d] => [parseNat 10 a * 256 + parseNat 10 b, parseNat 10 c * 256 + parseNat 10 d]
  | _ => []

def parseGroupsPlain (cs : List Char) : List Nat :=
  (cs.splitOn ':').map (parseNat 16)

def parseGroupsAfter (cs : List Char) : List Nat :=
  ((cs.splitOn ':').map (fun p => if '.' ∈ p then parseQuad p else [parseNat 16 p])).flatten

def parseIpv6 (cs : List Char) : List Nat :=
  match splitCC cs with
  | none => parseGroupsPlain cs
  | some (bef, aft) =>
    let bs := if bef = [] then [] else parseGroupsPlain bef
    let sa := if aft = [] then [] else parseGroupsAfter aft
    bs ++ List.replicate (8 - bs.length - sa.length) 0 ++ sa

/-! ### Round-trip helper lemmas -/

theorem splitOn_single {α : Type} [DecidableEq α] {x : α} {l : List α} (h : x ∉ l) :
    l.splitOn x = [l] := by
  have := List.splitOn_intercalate [l] x (by simpa using h) (by simp)
  rwa [intercalate_single] at this

theorem flatten_map_singleton {α β : Type} (f : α → β) (l : List α) :
    (l.map (fun p => [f p])).flatten = l.map f := by
  induction l with
  | nil => rfl
  | cons p t ih => simp [ih]

theorem colon_not_mem_hexChars (n : Nat) : ':' ∉ hexChars n :=
  not_mem_digitsBE (by norm_num) (by norm_num) (Or.inl rfl)

theorem colon_not_mem_decChars (n : Nat) : ':' ∉ decChars n :=
  not_mem_digitsBE (by norm_num) (by norm_num) (Or.inl rfl)

theorem dot_not_mem_hexChars (n : Nat) : '.' ∉ hexChars n :=
  not_mem_digitsBE (by norm_num) (by norm_num) (Or.inr (Or.inl rfl))

theorem dot_not_mem_decChars (n : Nat) : '.' ∉ decChars n :=
  not_mem_digitsBE (by norm_num) (by norm_num) (Or.inr (Or.inl rfl))

theorem parseGroupsPlain_join (gs : List Nat) (hne : gs ≠ []) :
    parseGroupsPlain (List.intercalate [':'] (gs.map hexChars)) = gs := by
  unfold parseGroupsPlain
  have hx : ∀ l ∈ gs.map hexChars, ':' ∉ l := by
    intro l hl
    rcases List.mem_map.mp hl with ⟨n, _, rfl⟩
    exact colon_not_mem_hexChars n
  have hls : gs.map hexChars ≠ [] := by simpa using hne
  rw [show List.intercalate [':'] (gs.map hexChars) = [':'].intercalate (gs.map hexChars) from rfl,
    List.splitOn_intercalate (gs.map hexChars) ':' hx hls, List.map_map]
  conv_rhs => rw [← List.map_id gs]
  apply List.map_congr_left
  intro n _
  exact parseNat_digitsBE (by norm_num) (by norm_num) n

theorem mem_v4Embedded_dot (g h : Nat) : '.' ∈ v4Embedded g h := by
  unfold v4Embedded
  rw [intercalate_cons_cons]
  simp

theorem colon_not_mem_v4Embedded (g h : Nat) : ':' ∉ v4Embedded g h := by
  intro hmem
  unfold v4Embedded at hmem
  rcases mem_intercalate hmem with h1 | ⟨p, hp, hcp⟩
  · simp at h1
  · simp only [List.mem_cons, List.mem_singleton] at hp
    rcases hp with rfl | rfl | rfl | rfl | hfalse
    · exact colon_not_mem_decChars _ hcp
    · exact colon_not_mem_decChars _ hcp
    · exact colon_not_mem_decChars _ hcp
    · exact colon_not_mem_decChars _ hcp
    · simp at hfalse

theorem v4Embedded_ne_nil (g h : Nat) : v4Embedded g h ≠ [] := by
  unfold v4Embedded
  rw [intercalate_cons_cons]
  simp [decChars, digitsBE_ne_nil]

theorem parseQuad_v4Embedded (g h : Nat) : parseQuad (v4Embedded g h) = [g, h] := by
  unfold parseQuad v4Embedded
  have hx : ∀ l ∈ [decChars (g / 256), decChars (g % 256), decChars (h / 256),
      decChars (h % 256)], '.' ∉ l := by
    intro l hl
    simp only [List.mem_cons, List.mem_singleton] at hl
    rcases hl with rfl | rfl | rfl | rfl | hfalse
    · exact dot_not_mem_decChars _
    · exact dot_not_mem_decChars _
    · exact dot_not_mem_decChars _
    · exact dot_not_mem_decChars _
    · simp at hfalse
  rw [show List.intercalate ['.'] [decChars (g / 256), decChars (g % 256), decChars (h / 256),
        decChars (h % 256)]
      = ['.'].intercalate [decChars (g / 256), decChars (g % 256), decChars (h / 256),
        decChars (h % 256)] from rfl,
    List.splitOn_intercalate [decChars (g / 256), decChars (g % 256), decChars (h / 256),
      decChars (h % 256)] '.' hx (by simp)]
  simp only [decChars, parseNat_digitsBE (by norm_num : (2:Nat) ≤ 10) (by norm_num : (10:Nat) ≤ 16)]
  have hg : g / 256 * 256 + g % 256 = g := by omega
  have hh : h / 256 * 256 + h % 256 = h := by omega
  rw [hg, hh]

theorem parseGroupsAfter_join (gs : List Nat) (hne : gs ≠ []) :
    parseGroupsAfter (List.intercalate [':'] (gs.map hexChars)) = gs := by
  unfold parseGroupsAfter
  have hx : ∀ l ∈ gs.map hexChars, ':' ∉ l := by
    intro l hl
    rcases List.mem_map.mp hl with ⟨n, _, rfl⟩
    exact colon_not_mem_hexChars n
  have hls : gs.map hexChars ≠ [] := by simpa using hne
  rw [show List.intercalate [':'] (gs.map hexChars) = [':'].intercalate (gs.map hexChars) from rfl,
    List.splitOn_intercalate (gs.map hexChars) ':' hx hls, List.map_map]
  have hmap : gs.map ((fun p => if '.' ∈ p then parseQuad p else [parseNat 16 p]) ∘ hexChars)
      = gs.map (fun n => [parseNat 16 (hexChars n)]) := by
    apply List.map_congr_left
    intro n _
    simp [dot_not_mem_hexChars n]
  rw [hmap, flatten_map_singleton]
  conv_rhs => rw [← List.map_id gs]
  apply List.map_congr_left
  intro n _
  exact parseNat_digitsBE (by norm_num) (by norm_num) n

theorem parseSide_plain (gs : List Nat) :
    (if List.intercalate [':'] (gs.map hexChars) = [] then []
     else parseGroupsPlain (List.intercalate [':'] (gs.map hexChars))) = gs := by
  cases gs with
  | nil => simp [List.intercalate]
  | cons g t =>
    have hne : List.intercalate [':'] ((g :: t).map hexChars) ≠ [] := by
      obtain ⟨r, hr⟩ := intercalate_head [':'] (hexChars g) (t.map hexChars)
      rw [List.map_cons, hr]
      intro hc
      exact digitsBE_ne_nil 16 g (List.append_eq_nil.mp hc).1
    rw [if_neg hne]
    exact parseGroupsPlain_join (g :: t) (by simp)

theorem parseSide_after (gs : List Nat) :
    (if List.intercalate [':'] (gs.map hexChars) = [] then []
     else parseGroupsAfter (List.intercalate [':'] (gs.map hexChars))) = gs := by
  cases gs with
  | nil => simp [List.intercalate]
  | cons g t =>
    have hne : List.intercalate [':'] ((g :: t).map hexChars) ≠ [] := by
      obtain ⟨r, hr⟩ := intercalate_head [':'] (hexChars g) (t.map hexChars)
      rw [List.map_cons, hr]
      intro hc
      exact digitsBE_ne_nil 16 g (List.append_eq_nil.mp hc).1
    rw [if_neg hne]
    exact parseGroupsAfter_join (g :: t) (by simp)

theorem parseIpv6_v6Fallback (s : List Nat) (hlen : s.length = 8) :
    parseIpv6 (v6Fallback s) = s := by
  unfold v6Fallback
  by_cases hbig : 2 ≤ (bestZeroRun s).2
  · rw [if_pos hbig]
    have hspec : (bestZeroRun s).2 = zlen s (bestZeroRun s).1 := bestZeroRun_spec s hbig
    have hdec : s = s.take (bestZeroRun s).1 ++ List.replicate (bestZeroRun s).2 0
        ++ s.drop ((bestZeroRun s).1 + (bestZeroRun s).2) := by
      conv_lhs => rw [zlen_decomp s (bestZeroRun s).1]
      rw [← hspec]
    have hcc : hasCC (List.intercalate [':'] ((s.take (bestZeroRun s).1).map hexChars)
        ++ [':']) = false := by
      apply hasCC_join_colon
      · intro p hp
        rcases List.mem_map.mp hp with ⟨n, _, rfl⟩
        exact digitsBE_ne_nil 16 n
      · intro p hp
        rcases List.mem_map.mp hp with ⟨n, _, rfl⟩
        exact colon_not_mem_hexChars n
    unfold parseIpv6
    rw [splitCC_append hcc]
    simp only [parseSide_plain, parseSide_after]
    have hlens : (s.take (bestZeroRun s).1).length + (bestZeroRun s).2
        + (s.drop ((bestZeroRun s).1 + (bestZeroRun s).2)).length = 8 := by
      have := congrArg List.length hdec
      simp only [List.length_append, List.length_replicate, hlen] at this
      omega
    have hrep : 8 - (s.take (bestZeroRun s).1).length
        - (s.drop ((bestZeroRun s).1 + (bestZeroRun s).2)).length = (bestZeroRun s).2 := by
      omega
    rw [hrep]
    exact hdec.symm
  · rw [if_neg hbig]
    have hcc : hasCC (List.intercalate [':'] (s.map hexChars)) = false := by
      apply hasCC_join_colon'
      · intro p hp
        rcases List.mem_map.mp hp with ⟨n, _, rfl⟩
        exact digitsBE_ne_nil 16 n
      · intro p hp
        rcases List.mem_map.mp hp with ⟨n, _, rfl⟩
        exact colon_not_mem_hexChars n
    unfold parseIpv6
    rw [splitCC_eq_none hcc]
    apply parseGroupsPlain_join
    intro hc
    rw [hc] at hlen
    simp at hlen

theorem parseGroupsAfter_quad (g h : Nat) :
    parseGroupsAfter (v4Embedded g h) = [g, h] := by
  unfold parseGroupsAfter
  rw [splitOn_single (colon_not_mem_v4Embedded g h)]
  simp [mem_v4Embedded_dot g h, parseQuad_v4Embedded g h]

theorem parseGroupsAfter_ffff_quad (g h : Nat) :
    parseGroupsAfter ('f' :: 'f' :: 'f' :: 'f' :: ':' :: v4Embedded g h) = [65535, g, h] := by
  unfold parseGroupsAfter
  have hsp : ('f' :: 'f' :: 'f' :: 'f' :: ':' :: v4Embedded g h).splitOn ':'
      = [['f', 'f', 'f', 'f'], v4Embedded g h] := by
    have h1 : ('f' :: 'f' :: 'f' :: 'f' :: ':' :: v4Embedded g h)
        = ['f', 'f', 'f', 'f'] ++ ':' :: v4Embedded g h := rfl
    rw [h1]
    unfold List.splitOn
    rw [List.splitOnP_first (· == ':') ['f', 'f', 'f', 'f'] (by decide) ':' (by simp) _]
    rw [show (v4Embedded g h).splitOnP (· == ':') = (v4Embedded g h).splitOn ':' from rfl,
      splitOn_single (colon_not_mem_v4Embedded g h)]
  rw [hsp]
  have hf : parseNat 16 ['f', 'f', 'f', 'f'] = 65535 := by decide
  simp [mem_v4Embedded_dot g h, parseQuad_v4Embedded g h, hf]

theorem parseIpv6_displayIpv6 (s0 s1 s2 s3 s4 s5 s6 s7 : Nat) :
    parseIpv6 (displayIpv6 s0 s1 s2 s3 s4 s5 s6 s7) = [s0, s1, s2, s3, s4, s5, s6, s7] := by
  unfold displayIpv6
  by_cases h6 : s0 = 0 ∧ s1 = 0 ∧ s2 = 0 ∧ s3 = 0 ∧ s4 = 0 ∧ s5 = 0
  · rw [if_pos h6]
    obtain ⟨rfl, rfl, rfl, rfl, rfl, rfl⟩ := h6
    by_cases h00 : s6 = 0 ∧ s7 = 0
    · rw [if_pos h00]
      obtain ⟨rfl, rfl⟩ := h00
      decide
    · rw [if_neg h00]
      by_cases h01 : s6 = 0 ∧ s7 = 1
      · rw [if_pos h01]
        obtain ⟨rfl, rfl⟩ := h01
        decide
      · rw [if_neg h01]
        have hsplit : splitCC (':' :: ':' :: v4Embedded s6 s7)
            = some ([], v4Embedded s6 s7) := by
          simp [splitCC]
        unfold parseIpv6
        rw [hsplit]
        simp only [if_pos rfl, if_neg (v4Embedded_ne_nil s6 s7), parseGroupsAfter_quad s6 s7]
        rfl
  · rw [if_neg h6]
    by_cases hm : s0 = 0 ∧ s1 = 0 ∧ s2 = 0 ∧ s3 = 0 ∧ s4 = 0 ∧ s5 = 65535
    · rw [if_pos hm]
      obtain ⟨rfl, rfl, rfl, rfl, rfl, rfl⟩ := hm
      have hsplit : splitCC (':' :: ':' :: 'f' :: 'f' :: 'f' :: 'f' :: ':' :: v4Embedded s6 s7)
          = some ([], 'f' :: 'f' :: 'f' :: 'f' :: ':' :: v4Embedded s6 s7) := by
        simp [splitCC]
      unfold parseIpv6
      rw [hsplit]
      have hne : ('f' :: 'f' :: 'f' :: 'f' :: ':' :: v4Embedded s6 s7) ≠ ([] : List Char) := by
        simp
      simp only [if_pos rfl, if_neg hne, parseGroupsAfter_ffff_quad s6 s7]
      rfl
    · rw [if_neg hm]
      exact parseIpv6_v6Fallback [s0, s1, s2, s3, s4, s5, s6, s7] (by simp)

/-! ### Character sets of the address renderings -/

/-- Characters that can occur in an address body rendering. -/
def plainChar (c : Char) : Prop := c = ':' ∨ c = '.' ∨ ∃ d, d < 16 ∧ c = digitCh d

theorem plainChar_hexChars {n : Nat} {c : Char} (hc : c ∈ hexChars n) : plainChar c := by
  rcases mem_digitsBE (by norm_num) (by norm_num) hc with ⟨d, hd, rfl⟩
  exact Or.inr (Or.inr ⟨d, hd, rfl⟩)

theorem plainChar_decChars {n : Nat} {c : Char} (hc : c ∈ decChars n) : plainChar c := by
  rcases mem_digitsBE (by norm_num) (by norm_num) hc with ⟨d, hd, rfl⟩
  exact Or.inr (Or.inr ⟨d, hd, rfl⟩)

theorem plainChar_v4Embedded {g h : Nat} {c : Char} (hc : c ∈ v4Embedded g h) : plainChar c := by
  unfold v4Embedded at hc
  rcases mem_intercalate hc with h1 | ⟨p, hp, hcp⟩
  · rcases List.mem_singleton.mp h1 with rfl
    exact Or.inr (Or.inl rfl)
  · simp only [List.mem_cons, List.mem_singleton] at hp
    rcases hp with rfl | rfl | rfl | rfl | hfalse
    · exact plainChar_decChars hcp
    · exact plainChar_decChars hcp
    · exact plainChar_decChars hcp
    · exact plainChar_decChars hcp
    · simp at hfalse

theorem plainChar_join_hex {gs : List Nat} {c : Char}
    (hc : c ∈ List.intercalate [':'] (gs.map hexChars)) : plainChar c := by
  rcases mem_intercalate hc with h1 | ⟨p, hp, hcp⟩
  · rcases List.mem_singleton.mp h1 with rfl
    exact Or.inl rfl
  · rcases List.mem_map.mp hp with ⟨n, _, rfl⟩
    exact plainChar_hexChars hcp

theorem plainChar_v6Fallback {s : List Nat} {c : Char} (hc : c ∈ v6Fallback s) : plainChar c := by
  unfold v6Fallback at hc
  split_ifs at hc
  · rcases List.mem_append.mp hc with h1 | h2
    · exact plainChar_join_hex h1
    · rcases List.mem_cons.mp h2 with rfl | h5
      · exact Or.inl rfl
      · rcases List.mem_cons.mp h5 with rfl | h6
        · exact Or.inl rfl
        · exact plainChar_join_hex h6
  · exact plainChar_join_hex hc

theorem plainChar_displayIpv6 {s0 s1 s2 s3 s4 s5 s6 s7 : Nat} {c : Char}
    (hc : c ∈ displayIpv6 s0 s1 s2 s3 s4 s5 s6 s7) : plainChar c := by
  unfold displayIpv6 at hc
  split_ifs at hc
  · simp only [List.mem_cons, List.mem_singleton] at hc
    rcases hc with rfl | rfl | hfalse
    · exact Or.inl rfl
    · exact Or.inl rfl
    · simp at hfalse
  · simp only [List.mem_cons, List.mem_singleton] at hc
    rcases hc with rfl | rfl | rfl | hfalse
    · exact Or.inl rfl
    · exact Or.inl rfl
    · exact Or.inr (Or.inr ⟨1, by norm_num, rfl⟩)
    · simp at hfalse
  · rcases List.mem_cons.mp hc with rfl | h1
    · exact Or.inl rfl
    · rcases List.mem_cons.mp h1 with rfl | h2
      · exact Or.inl rfl
      · exact plainChar_v4Embedded h2
  · rcases List.mem_cons.mp hc with rfl | h1
    · exact Or.inl rfl
    · rcases List.mem_cons.mp h1 with rfl | h2
      · exact Or.inl rfl
      · rcases List.mem_cons.mp h2 with rfl | h3
        · exact Or.inr (Or.inr ⟨15, by norm_num, rfl⟩)
        · rcases List.mem_cons.mp h3 with rfl | h4
          · exact Or.inr (Or.inr ⟨15, by norm_num, rfl⟩)
          · rcases List.mem_cons.mp h4 with rfl | h5
            · exact Or.inr (Or.inr ⟨15, by norm_num, rfl⟩)
            · rcases List.mem_cons.mp h5 with rfl | h6
              · exact Or.inr (Or.inr ⟨15, by norm_num, rfl⟩)
              · rcases List.mem_cons.mp h6 with rfl | h7
                · exact Or.inl rfl
                · exact plainChar_v4Embedded h7
  · exact plainChar_v6Fallback hc

theorem plainChar_ne {c : Char} (h : plainChar c) : c ≠ '-' ∧ c ≠ '[' ∧ c ≠ ']' := by
  rcases h with rfl | rfl | ⟨d, hd, rfl⟩
  · exact ⟨by decide, by decide, by decide⟩
  · exact ⟨by decide, by decide, by decide⟩
  · have h2 := digitCh_ne d hd
    exact ⟨h2.2.2.1, h2.2.2.2.1, h2.2.2.2.2⟩

/-! ### Socket addresses and their display -/

/-- A socket address: IPv4 octets plus a port, or IPv6 16-bit groups plus
flowinfo, scope id and a port. The flowinfo and scope id fields participate in
equality of the standard `SocketAddr` type but are not shown by this era's
formatter. -/
inductive SockAddr : Type
  | v4 (a b c d : Nat) (port : Nat)
  | v6 (s0 s1 s2 s3 s4 s5 s6 s7 : Nat) (flowinfo scope_id : Nat) (port : Nat)
deriving DecidableEq

/-- Display of a socket address by the standard formatter:
`a.b.c.d:port` for IPv4 and `[groups]:port` for IPv6. -/
def displaySockAddr : SockAddr → List Char
  | .v4 a b c d p =>
      List.intercalate ['.'] [decChars a, decChars b, decChars c, decChars d] ++ ':' :: decChars p
  | .v6 s0 s1 s2 s3 s4 s5 s6 s7 _ _ p =>
      '[' :: (displayIpv6 s0 s1 s2 s3 s4 s5 s6 s7 ++ ']' :: ':' :: decChars p)

/-- Parse a displayed socket address (left inverse of `displaySockAddr`). -/
def parseSockAddr (cs : List Char) : Option SockAddr :=
  if cs.head? = some '[' then
    match cs.tail.splitOn ']' with
    | [ip, ':' :: p] =>
      match parseIpv6 ip with
      | [s0, s1, s2, s3, s4, s5, s6, s7] =>
          some (.v6 s0 s1 s2 s3 s4 s5 s6 s7 0 0 (parseNat 10 p))
      | _ => none
    | _ => none
  else
    match cs.splitOn ':' with
    | [ip, p] =>
      match ip.splitOn '.' with
      | [a, b, c, d] =>
          some (.v4 (parseNat 10 a) (parseNat 10 b) (parseNat 10 c) (parseNat 10 d) (parseNat 10 p))
      | _ => none
    | _ => none

theorem splitOn_append_sep {α : Type} [DecidableEq α] {x : α} {ip rest : List α}
    (h1 : x ∉ ip) (h2 : x ∉ rest) : (ip ++ x :: rest).splitOn x = [ip, rest] := by
  unfold List.splitOn
  rw [List.splitOnP_first (fun y => y == x) ip
    (by intro y hy hb; exact h1 ((eq_of_beq hb) ▸ hy)) x (by simp) rest]
  rw [show rest.splitOnP (fun y => y == x) = rest.splitOn x from rfl, splitOn_single h2]

theorem v4_ip_chars {a b c d : Nat} {ch : Char}
    (hc : ch ∈ List.intercalate ['.'] [decChars a, decChars b, decChars c, decChars d]) :
    ch = '.' ∨ ∃ dd, dd < 16 ∧ ch = digitCh dd := by
  rcases mem_intercalate hc with h1 | ⟨p, hp, hcp⟩
  · exact Or.inl (List.mem_singleton.mp h1)
  · simp only [List.mem_cons, List.mem_singleton] at hp
    have hplain : plainChar ch := by
      rcases hp with rfl | rfl | rfl | rfl | hfalse
      · exact plainChar_decChars hcp
      · exact plainChar_decChars hcp
      · exact plainChar_decChars hcp
      · exact plainChar_decChars hcp
      · simp at hfalse
    rcases hplain with rfl | rfl | hd
    · rcases hp with rfl | rfl | rfl | rfl | hfalse
      · exact absurd hcp (colon_not_mem_decChars a)
      · exact absurd hcp (colon_not_mem_decChars b)
      · exact absurd hcp (colon_not_mem_decChars c)
      · exact absurd hcp (colon_not_mem_decChars d)
      · simp at hfalse
    · exact Or.inl rfl
    · exact Or.inr hd

/-- The displayed components of a socket address: everything the formatter
shows — the IPv6 flowinfo and scope id are erased (set to 0). -/
def SockAddr.displayed : SockAddr → SockAddr
  | .v4 a b c d p => .v4 a b c d p
  | .v6 s0 s1 s2 s3 s4 s5 s6 s7 _ _ p => .v6 s0 s1 s2 s3 s4 s5 s6 s7 0 0 p

theorem displaySockAddr_displayed (a : SockAddr) :
    displaySockAddr a.displayed = displaySockAddr a := by
  cases a <;> rfl

theorem parseSockAddr_display (a : SockAddr) :
    parseSockAddr (displaySockAddr a) = some a.displayed := by
  cases a with
  | v4 a b c d p =>
    unfold displaySockAddr parseSockAddr
    have hne : decChars a ≠ [] := digitsBE_ne_nil 10 a
    obtain ⟨r, hr⟩ := intercalate_head ['.'] (decChars a) [decChars b, decChars c, decChars d]
    have hhd : (List.intercalate ['.'] [decChars a, decChars b, decChars c, decChars d]
        ++ ':' :: decChars p).head? ≠ some '[' := by
      rw [hr, List.append_assoc, head?_append_of_ne_nil _ hne]
      cases hde : decChars a with
      | nil => exact absurd hde hne
      | cons c0 t =>
        have hc0 : c0 ∈ decChars a := by
          rw [hde]
          exact List.mem_cons_self c0 t
        rcases mem_digitsBE (by norm_num) (by norm_num) hc0 with ⟨dd, hdd, rfl⟩
        have := (digitCh_ne dd hdd).2.2.2.1
        simpa using this
    rw [if_neg hhd]
    have hipcolon : ':' ∉ List.intercalate ['.'] [decChars a, decChars b, decChars c,
        decChars d] := by
      intro hmem
      rcases v4_ip_chars hmem with h1 | ⟨dd, hdd, h2⟩
      · simp at h1
      · exact (digitCh_ne dd hdd).1 h2.symm
    rw [splitOn_append_sep hipcolon (colon_not_mem_decChars p)]
    have hdots : ∀ l ∈ [decChars a, decChars b, decChars c, decChars d], '.' ∉ l := by
      intro l hl
      simp only [List.mem_cons, List.mem_singleton] at hl
      rcases hl with rfl | rfl | rfl | rfl | hfalse
      · exact dot_not_mem_decChars a
      · exact dot_not_mem_decChars b
      · exact dot_not_mem_decChars c
      · exact dot_not_mem_decChars d
      · simp at hfalse
    have hsp : List.splitOn '.'
        (List.intercalate ['.'] [decChars a, decChars b, decChars c, decChars d])
        = [decChars a, decChars b, decChars c, decChars d] :=
      List.splitOn_intercalate [decChars a, decChars b, decChars c, decChars d] '.' hdots
        (by simp)
    simp only [hsp]
    simp only [decChars, parseNat_digitsBE (by norm_num : (2:Nat) ≤ 10)
      (by norm_num : (10:Nat) ≤ 16), SockAddr.displayed]
  | v6 s0 s1 s2 s3 s4 s5 s6 s7 fi sc p =>
    unfold displaySockAddr parseSockAddr
    simp only [List.head?_cons, List.tail_cons, if_pos rfl]
    have hbr : ']' ∉ displayIpv6 s0 s1 s2 s3 s4 s5 s6 s7 := by
      intro hmem
      exact (plainChar_ne (plainChar_displayIpv6 hmem)).2.2 rfl
    have hbr2 : ']' ∉ ':' :: decChars p := by
      intro hmem
      rcases List.mem_cons.mp hmem with h1 | h2
      · simp at h1
      · exact not_mem_digitsBE (by norm_num) (by norm_num)
          (Or.inr (Or.inr (Or.inr (Or.inr rfl)))) h2
    have hsp := splitOn_append_sep hbr hbr2
    rw [hsp]
    simp only [parseIpv6_displayIpv6, decChars,
      parseNat_digitsBE (by norm_num : (2:Nat) ≤ 10) (by norm_num : (10:Nat) ≤ 16),
      SockAddr.displayed]
    simp

theorem displaySockAddr_inj {a b : SockAddr} (h : displaySockAddr a = displaySockAddr b) :
    a.displayed = b.displayed := by
  have h1 := parseSockAddr_display a
  have h2 := parseSockAddr_display b
  rw [h, h2] at h1
  exact (Option.some_injective _ h1).symm

theorem dash_not_mem_displaySockAddr (a : SockAddr) : '-' ∉ displaySockAddr a := by
  intro hmem
  cases a with
  | v4 a b c d p =>
    unfold displaySockAddr at hmem
    rcases List.mem_append.mp hmem with h1 | h2
    · rcases v4_ip_chars h1 with h3 | ⟨dd, hdd, h4⟩
      · simp at h3
      · exact (digitCh_ne dd hdd).2.2.1 h4.symm
    · rcases List.mem_cons.mp h2 with h3 | h4
      · simp at h3
      · exact not_mem_digitsBE (by norm_num) (by norm_num)
          (Or.inr (Or.inr (Or.inl rfl))) h4
  | v6 s0 s1 s2 s3 s4 s5 s6 s7 fi sc p =>
    unfold displaySockAddr at hmem
    rcases List.mem_cons.mp hmem with h1 | h2
    · simp at h1
    · rcases List.mem_append.mp h2 with h3 | h4
      · exact (plainChar_ne (plainChar_displayIpv6 h3)).1 rfl
      · rcases List.mem_cons.mp h4 with h5 | h6
        · simp at h5
        · rcases List.mem_cons.mp h6 with h7 | h8
          · simp at h7
          · exact not_mem_digitsBE (by norm_num) (by norm_num)
              (Or.inr (Or.inr (Or.inl rfl))) h8

/-! ### The cache key (`cache_key` in redir_local.rs) -/

/-- `cache_key(src, dst)`: the string `format!("{}-{}", src, dst)`. -/
def cache_key (src dst : SockAddr) : List Char :=
  displaySockAddr src ++ '-' :: displaySockAddr dst

theorem append_single_sep_inj {x : Char} :
    ∀ {x1 : List Char} {y1 : List Char} {x2 : List Char} {y2 : List Char},
    x1 ++ x :: y1 = x2 ++ x :: y2 → x ∉ x1 → x ∉ x2 → x1 = x2 ∧ y1 = y2 := by
  intro x1
  induction x1 with
  | nil =>
    intro y1 x2 y2 h h1 h2
    cases x2 with
    | nil => simpa using h
    | cons c2 t2 =>
      simp only [List.nil_append, List.cons_append, List.cons_eq_cons] at h
      exact absurd (h.1 ▸ List.mem_cons_self c2 t2) h2
  | cons c t ih =>
    intro y1 x2 y2 h h1 h2
    cases x2 with
    | nil =>
      simp only [List.nil_append, List.cons_append, List.cons_eq_cons] at h
      exact absurd (h.1.symm ▸ List.mem_cons_self c t) h1
    | cons c2 t2 =>
      simp only [List.cons_append, List.cons_eq_cons] at h
      obtain ⟨rfl, heq⟩ := h
      have ht1 : x ∉ t := fun hm => h1 (List.mem_cons_of_mem _ hm)
      have ht2 : x ∉ t2 := fun hm => h2 (List.mem_cons_of_mem _ hm)
      obtain ⟨rfl, rfl⟩ := ih heq ht1 ht2
      exact ⟨rfl, rfl⟩

/-- C8 counterexample: two distinct socket-address pairs — link-local source
`fe80::1` with scope id 1 versus scope id 2, same port and destination —
yield the same cache key, because the formatter shows neither flowinfo nor
scope id; so `cache_key` is not injective on socket-address pairs as the
claim states. -/
theorem cache_key_collision :
    cache_key (.v6 65152 0 0 0 0 0 0 1 0 1 5000) (.v4 1 2 3 4 53)
      = cache_key (.v6 65152 0 0 0 0 0 0 1 0 2 5000) (.v4 1 2 3 4 53)
    ∧ (SockAddr.v6 65152 0 0 0 0 0 0 1 0 1 5000)
        ≠ (SockAddr.v6 65152 0 0 0 0 0 0 1 0 2 5000) :=
  ⟨rfl, by decide⟩

/-- C8 (amended): the flow-key derivation `cache_key` is deterministic (it is
a function) and injective up to the displayed components: keys agree exactly
when the source addresses and the destination addresses agree on everything
the formatter shows — the whole address and port, ignoring only the IPv6
flowinfo and scope id, which do not appear in the key. -/
theorem cache_key_injective_up_to_display (s1 d1 s2 d2 : SockAddr) :
    cache_key s1 d1 = cache_key s2 d2
      ↔ s1.displayed = s2.displayed ∧ d1.displayed = d2.displayed := by
  constructor
  · intro h
    obtain ⟨hs, hd⟩ := append_single_sep_inj h (dash_not_mem_displaySockAddr s1)
      (dash_not_mem_displaySockAddr s2)
    exact ⟨displaySockAddr_inj hs, displaySockAddr_inj hd⟩
  · rintro ⟨hs, hd⟩
    unfold cache_key
    rw [← displaySockAddr_displayed s1, ← displaySockAddr_displayed d1, hs, hd,
      displaySockAddr_displayed, displaySockAddr_displayed]

/-! ### The external address codec -/

/-- Modelled from the spec: the `ADDRESS` wire codec (`relay::socks5::Address`,
whose source is not part of this repository's files): a variable-length tagged
encoding — tagged IPv4 / IPv6 / domain name — followed by a 2-byte port. -/
inductive Address : Type
  | socket (sa : SockAddr)
  | domain (name : List Nat) (port : Nat)
deriving DecidableEq

/-- Big-endian 2-byte rendering of a 16-bit value. -/
def writeU16 (p : Nat) : List Nat := [p / 256 % 256, p % 256]

/-- Modelled from the spec: `Address::write_to_buf` — tag byte, address bytes,
then the 2-byte port. Tag 1: IPv4 (4 bytes); tag 4: IPv6 (16 bytes); tag 3:
domain (length byte, then the name bytes). -/
def write_to_buf : Address → List Nat
  | .socket (.v4 a b c d p) => 1 :: a :: b :: c :: d :: writeU16 p
  | .socket (.v6 s0 s1 s2 s3 s4 s5 s6 s7 _ _ p) =>
      4 :: (([s0, s1, s2, s3, s4, s5, s6, s7].map writeU16).flatten ++ writeU16 p)
  | .domain name p => 3 :: name.length % 256 :: (name ++ writeU16 p)

/-- Modelled from the spec: `Address::read_from` on a cursor — parse the leading
address field, returning it together with the bytes that follow it. -/
def read_from (buf : List Nat) : Option (Address × List Nat) :=
  match buf with
  | 1 :: a :: b :: c :: d :: p1 :: p2 :: rest =>
      some (.socket (.v4 a b c d (p1 * 256 + p2)), rest)
  | 4 :: b0 :: b1 :: b2 :: b3 :: b4 :: b5 :: b6 :: b7 :: b8 :: b9 :: b10 :: b11 :: b12 :: b13
      :: b14 :: b15 :: p1 :: p2 :: rest =>
      some (.socket (.v6 (b0 * 256 + b1) (b2 * 256 + b3) (b4 * 256 + b5) (b6 * 256 + b7)
        (b8 * 256 + b9) (b10 * 256 + b11) (b12 * 256 + b13) (b14 * 256 + b15)
        0 0 (p1 * 256 + p2)), rest)
  | 3 :: len :: rest =>
      match rest.drop (len + 2) , rest.drop len with
      | _, p1 :: p2 :: rest2 => some (.domain (rest.take len) (p1 * 256 + p2), rest2)
      | _, _ => none
  | _ => none

/-- A representable address: a domain name fits in the length byte. -/
def Address.validb : Address → Bool
  | .domain name _ => name.length < 256
  | _ => true

/-- Parsing a frame `write_to_buf A ++ P` consumes exactly the encoded address:
the returned remainder is `P`. -/
theorem read_from_write_to_buf (A : Address) (hv : A.validb = true) (P : List Nat) :
    ∃ A2, read_from (write_to_buf A ++ P) = some (A2, P) := by
  cases A with
  | socket sa =>
    cases sa with
    | v4 a b c d p =>
      exact ⟨.socket (.v4 a b c d (p / 256 % 256 * 256 + p % 256)), rfl⟩
    | v6 s0 s1 s2 s3 s4 s5 s6 s7 fi sc p =>
      exact ⟨.socket (.v6 (s0 / 256 % 256 * 256 + s0 % 256) (s1 / 256 % 256 * 256 + s1 % 256)
        (s2 / 256 % 256 * 256 + s2 % 256) (s3 / 256 % 256 * 256 + s3 % 256)
        (s4 / 256 % 256 * 256 + s4 % 256) (s5 / 256 % 256 * 256 + s5 % 256)
        (s6 / 256 % 256 * 256 + s6 % 256) (s7 / 256 % 256 * 256 + s7 % 256)
        0 0 (p / 256 % 256 * 256 + p % 256)), rfl⟩
  | domain name p =>
    simp only [Address.validb, decide_eq_true_eq] at hv
    refine ⟨.domain name (p / 256 % 256 * 256 + p % 256), ?_⟩
    simp only [write_to_buf, List.cons_append, read_from]
    have hlen : name.length % 256 = name.length := Nat.mod_eq_of_lt hv
    rw [hlen]
    have hdrop : (name ++ writeU16 p ++ P).drop name.length = writeU16 p ++ P := by
      rw [List.append_assoc, List.drop_left]
    have htake : (name ++ writeU16 p ++ P).take name.length = name := by
      rw [List.append_assoc, List.take_left]
    rw [hdrop, htake]
    simp [writeU16]

/-! ### Egress: `UdpAssociation::relay_l2r` and the local→remote task -/

/-- Outcome of one `relay_l2r` call. -/
inductive L2ROutcome : Type
  | ok : L2ROutcome
  | sendErr : L2ROutcome        -- `try_timeout` timeout or socket error, returned as `Err`
  | panicShortSend : L2ROutcome -- the `assert_eq!(encrypt_buf.len(), send_len)` fired
deriving DecidableEq

/-- `UdpAssociation::relay_l2r`: build the frame `ADDRESS || RAW_PAYLOAD`
(`dst.write_to_buf(..)` then `extend_from_slice(payload)`), encrypt the whole
buffer, send the ciphertext with a timeout, and assert that the number of bytes
accepted equals the ciphertext length. `sendResult` is the environment's
response to the send call (`none` = timeout or error, `some n` = `n` bytes
accepted). The second component is the ciphertext buffer handed to the send
call. -/
def relay_l2r (encrypt : List Nat → List Nat) (dst : Address) (payload : List Nat)
    (sendResult : List Nat → Option Nat) : L2ROutcome × List Nat :=
  let send_buf := write_to_buf dst ++ payload
  let encrypt_buf := encrypt send_buf
  match sendResult encrypt_buf with
  | none => (.sendErr, encrypt_buf)
  | some send_len =>
      if encrypt_buf.length = send_len then (.ok, encrypt_buf)
      else (.panicShortSend, encrypt_buf)

/-- The local→remote task body (`while let Some(pkt) = rx.recv().await`):
drain the queue in FIFO order, calling `relay_l2r` on each payload; an `Err`
result is logged and the loop continues; a panic aborts the task. Returns the
ciphertext buffers in the order they were handed to the send call. -/
def egressSends (encrypt : List Nat → List Nat) (dst : Address)
    (sendResult : List Nat → Option Nat) : List (List Nat) → List (List Nat)
  | [] => []
  | pkt :: rest =>
    match relay_l2r encrypt dst pkt sendResult with
    | (.panicShortSend, encrypt_buf) => [encrypt_buf]
    | (_, encrypt_buf) => encrypt_buf :: egressSends encrypt dst sendResult rest

/-! ### Reply path: `UdpAssociation::relay_r2l` -/

/-- Result of one `relay_r2l` call. The `ok`/`errSendFail` constructors record
the bytes handed to `local_udp.send_to` and the destination they were sent to. -/
inductive R2LResult : Type
  | ok (sent : List Nat) (dest : SockAddr)
  | errSendFail (sent : List Nat) (dest : SockAddr)
  | errRecv
  | errDecrypt
  | errTooShort
  | errAddr
deriving DecidableEq

/-- `UdpAssociation::relay_r2l`: receive from the remote socket, decrypt
(`decrypt` returns `none` for an I/O error, `some none` when the buffer is
shorter than the minimum valid ciphertext, `some (some b)` for plaintext `b`),
parse the leading `ADDRESS` field (its value is ignored), and forward the
remaining bytes to the original source address. -/
def relay_r2l (src_addr : SockAddr) (recvResult : Option (List Nat))
    (decrypt : List Nat → Option (Option (List Nat))) (localSendOk : Bool) : R2LResult :=
  match recvResult with
  | none => .errRecv
  | some recv_buf =>
    match decrypt recv_buf with
    | none => .errDecrypt
    | some none => .errTooShort
    | some (some decrypt_buf) =>
      match read_from decrypt_buf with
      | none => .errAddr
      | some (_, payload) =>
          if localSendOk then .ok payload src_addr else .errSendFail payload src_addr

/-- The bytes handed to the reply-side `send_to`, with their destination
(whether or not that send succeeded). -/
def sentBytes : R2LResult → Option (List Nat × SockAddr)
  | .ok sent dest => some (sent, dest)
  | .errSendFail sent dest => some (sent, dest)
  | _ => none

/-! ### The association cache (`LruCache::with_expiry_duration`) and ingress loop -/

/-- A cache entry: key string, association identity, time of last access. -/
structure CEntry : Type where
  key : List Char
  assocId : Nat
  lastAccess : Nat
deriving DecidableEq

/-- Is the entry for `key` live at time `now` (present and not expired)?
Returns its association id. lru_time_cache counts an entry as expired once
`timeout` has elapsed since its last access. -/
def lookupLive (timeout now : Nat) (entries : List CEntry) (key : List Char) : Option Nat :=
  match entries.find? (fun e => e.key == key && decide (now - e.lastAccess < timeout)) with
  | some e => some e.assocId
  | none => none

/-- Refresh the recency of the entry for `key`. -/
def touchKey (now : Nat) (entries : List CEntry) (key : List Char) : List CEntry :=
  entries.map (fun e => if e.key == key then { e with lastAccess := now } else e)

/-- Remove any (stale) entry for `key`, then insert a fresh one. -/
def insertFresh (now : Nat) (entries : List CEntry) (key : List Char) (assocId : Nat) :
    List CEntry :=
  ⟨key, assocId, now⟩ :: entries.filter (fun e => !(e.key == key))

/-- Drop every expired entry (the effect of touching the cache's iterator when
the ingress receive times out). -/
def purgeExpired (timeout now : Nat) (entries : List CEntry) : List CEntry :=
  entries.filter (fun e => decide (now - e.lastAccess < timeout))

/-- The ingress loop's state: the association map and the association-creation
counter (`nextId` doubles as the identity the next factory call returns;
`factoryCount` counts how many times `UdpAssociation::associate` ran). -/
structure IngressState : Type where
  timeout : Nat
  entries : List CEntry
  nextId : Nat
  factoryCount : Nat
deriving DecidableEq

/-- Observable events of one ingress iteration. -/
inductive IngressEvent : Type
  | factoryInvoked (key : List Char)
  | enqueued (assocId : Nat) (payload : List Nat)
deriving DecidableEq

/-- One input to the ingress loop: either the receive timed out (after
`timeout`), or a datagram arrived with its source, original destination,
payload and arrival time. -/
inductive LoopInput : Type
  | timeoutTick (now : Nat)
  | datagram (src dst : SockAddr) (payload : List Nat) (now : Nat)
deriving DecidableEq

/-- Result of one ingress iteration: the next state plus events, or a fatal
abort (`UdpAssociation::associate` failed and `.expect(..)` panicked). -/
inductive StepResult : Type
  | next (st : IngressState) (events : List IngressEvent)
  | fatal
deriving DecidableEq

/-- One iteration of `run`'s loop: on timeout, let the cache purge expired
entries; on a zero-length datagram, continue silently; otherwise look up or
create the association for `cache_key(src, dst)` under the lock and enqueue
the payload. `factoryOk` tells whether association creation succeeds. -/
def ingressStep (factoryOk : Bool) (st : IngressState) : LoopInput → StepResult
  | .timeoutTick now =>
      .next { st with entries := purgeExpired st.timeout now st.entries } []
  | .datagram src dst payload now =>
    if payload.length = 0 then .next st []
    else
      match lookupLive st.timeout now st.entries (cache_key src dst) with
      | some assocId =>
          .next { st with entries := touchKey now st.entries (cache_key src dst) }
            [.enqueued assocId payload]
      | none =>
          if factoryOk then
            .next { st with
                entries := insertFresh now st.entries (cache_key src dst) st.nextId,
                nextId := st.nextId + 1,
                factoryCount := st.factoryCount + 1 }
              [.factoryInvoked (cache_key src dst), .enqueued st.nextId payload]
          else .fatal

/-- Result of running the ingress loop over a list of inputs. -/
inductive RunResult : Type
  | finished (st : IngressState) (events : List IngressEvent)
  | died (events : List IngressEvent)
deriving DecidableEq

/-- Run the ingress loop over a list of inputs; `env n` tells whether the
`n`-th association creation succeeds. A fatal step aborts the whole loop:
no later input is processed. -/
def runLoop (env : Nat → Bool) (st : IngressState) : List LoopInput → RunResult
  | [] => .finished st []
  | inp :: rest =>
    match ingressStep (env st.factoryCount) st inp with
    | .fatal => .died []
    | .next st2 evs =>
      match runLoop env st2 rest with
      | .finished st3 evs2 => .finished st3 (evs ++ evs2)
      | .died evs2 => .died (evs ++ evs2)

/-- Number of factory invocations among the events. -/
def countFactory (evs : List IngressEvent) : Nat :=
  (evs.filter (fun e => match e with | .factoryInvoked _ => true | _ => false)).length

/-! ### The local←remote task loop -/

/-- Per-iteration environment of the reply task: the remote receive result, the
decrypt routine, whether the reply-side send succeeds, and the current time. -/
structure ReplyEnv : Type where
  recvResult : Option (List Nat)
  decrypt : List Nat → Option (Option (List Nat))
  localSendOk : Bool
  now : Nat

/-- `amap.get(&cache_key)` as done by the reply loop: refresh the entry's
recency when it is live, drop it when it is present but expired. -/
def cacheGet (timeout now : Nat) (entries : List CEntry) (key : List Char) : List CEntry :=
  match lookupLive timeout now entries key with
  | some _ => touchKey now entries key
  | none => entries.filter (fun e => !(e.key == key && decide (timeout ≤ now - e.lastAccess)))

/-- One iteration of the reply loop's body (`transfer_fut`): run `relay_r2l`,
log on error, then lock the map and `get` this flow's key to check or update
its expire time. Every path falls through to the next iteration — the `break`
in the error arm is commented out in the source. -/
def replyIteration (src dst : SockAddr) (timeout : Nat) (env : ReplyEnv)
    (entries : List CEntry) : R2LResult × List CEntry :=
  let res := relay_r2l src env.recvResult env.decrypt env.localSendOk
  (res, cacheGet timeout env.now entries (cache_key src dst))

/-- The spawned local←remote task after `n` rounds of the select between the
loop body and the shutdown watcher: it is still running iff the watcher has
not fired in any earlier round; a fired watcher resolves the select and the
task finishes. Returns (still running, association-map entries). -/
def replyTask (src dst : SockAddr) (timeout : Nat) (envs : Nat → ReplyEnv)
    (fired : Nat → Bool) (entries0 : List CEntry) : Nat → Bool × List CEntry
  | 0 => (true, entries0)
  | n + 1 =>
    match replyTask src dst timeout envs fired entries0 n with
    | (false, entries) => (false, entries)
    | (true, entries) =>
      if fired n then (false, entries)
      else (true, (replyIteration src dst timeout (envs n) entries).2)

/-! ### The egress queue channel (`mpsc::channel`) and `UdpAssociation::send` -/

/-- State of the bounded mpsc channel between the ingress loop and one egress
task: the number of live sender clones, whether the egress task still holds
the receiver, and the queued payloads. -/
structure ChanState : Type where
  senders : Nat
  receiverOpen : Bool
  queued : List (List Nat)
deriving DecidableEq

/-- The channel actions the program can perform. The egress task releases the
receiver only when `rx.recv()` returns `None`, which the channel yields only
once every sender has been dropped and the queue is drained. -/
inductive ChanStep : ChanState → ChanState → Prop
  | clone (s : Nat) (r : Bool) (q : List (List Nat)) :
      ChanStep ⟨s + 1, r, q⟩ ⟨s + 2, r, q⟩
  | dropSender (s : Nat) (r : Bool) (q : List (List Nat)) :
      ChanStep ⟨s + 1, r, q⟩ ⟨s, r, q⟩
  | send (s : Nat) (q : List (List Nat)) (pkt : List Nat) :
      ChanStep ⟨s + 1, true, q⟩ ⟨s + 1, true, q ++ [pkt]⟩
  | recv (s : Nat) (q : List (List Nat)) (pkt : List Nat) :
      ChanStep ⟨s, true, pkt :: q⟩ ⟨s, true, q⟩
  | recvNoneClose : ChanStep ⟨0, true, []⟩ ⟨0, false, []⟩

/-- States reachable from the channel's creation in `associate`: one sender
handle (`tx`) and the egress task holding the receiver (`rx`). -/
inductive ChanReachable : ChanState → Prop
  | init : ChanReachable ⟨1, true, []⟩
  | step {a b : ChanState} : ChanReachable a → ChanStep a b → ChanReachable b

/-- Outcome of `UdpAssociation::send`. -/
inductive SendOutcome : Type
  | sent
  | panicked   -- the `unreachable!` in the `Err` branch
deriving DecidableEq

/-- `UdpAssociation::send`: `tx.send(pkt)` succeeds unless the receiver has
been dropped, in which case the `Err` branch hits `unreachable!`. -/
def UdpAssociation.send (s : ChanState) (pkt : List Nat) : SendOutcome × ChanState :=
  if s.receiverOpen then (.sent, { s with queued := s.queued ++ [pkt] })
  else (.panicked, s)

/-! ### Claim theorems -/

/-- C2: for every payload `p` enqueued for a flow with logical destination `A`,
the egress task hands `encrypt(encode(A) || p)` to the remote send call, and
the payloads of one flow's queue are sent in exactly their FIFO order: the
buffers handed to the send call are the per-payload frames, in queue order. -/
theorem egress_frames_in_order (encrypt : List Nat → List Nat) (dst : Address)
    (sendResult : List Nat → Option Nat) (queue : List (List Nat))
    (hsend : ∀ buf n, sendResult buf = some n → n = buf.length) :
    egressSends encrypt dst sendResult queue
      = queue.map (fun p => encrypt (write_to_buf dst ++ p)) := by
  induction queue with
  | nil => rfl
  | cons pkt rest ih =>
    cases hs : sendResult (encrypt (write_to_buf dst ++ pkt)) with
    | none =>
      have hrel : relay_l2r encrypt dst pkt sendResult
          = (.sendErr, encrypt (write_to_buf dst ++ pkt)) := by
        simp only [relay_l2r, hs]
      simp only [egressSends, hrel, List.map_cons, ih]
    | some n =>
      have hn : n = (encrypt (write_to_buf dst ++ pkt)).length := hsend _ n hs
      have hrel : relay_l2r encrypt dst pkt sendResult
          = (.ok, encrypt (write_to_buf dst ++ pkt)) := by
        simp [relay_l2r, hs, hn]
      simp only [egressSends, hrel, List.map_cons, ih]

theorem egress_frames_in_order_witness :
    egressSends (fun b => 7 :: b) (.socket (.v4 1 2 3 4 80)) (fun b => some b.length)
        [[10], [11, 12]]
      = [[10], [11, 12]].map
          (fun p => 7 :: (write_to_buf (.socket (.v4 1 2 3 4 80)) ++ p)) :=
  egress_frames_in_order (fun b => 7 :: b) (.socket (.v4 1 2 3 4 80))
    (fun b => some b.length) [[10], [11, 12]]
    (fun _ _ h => (Option.some_inj.mp h).symm)

/-- C6: when the egress send call completes without error accepting `n` bytes,
`relay_l2r` succeeds exactly when `n` equals the ciphertext length, and any
other byte count trips the `assert_eq!` — a hard panic, never a silently
ignored truncation. -/
theorem relay_l2r_full_send (encrypt : List Nat → List Nat) (dst : Address)
    (payload : List Nat) (sendResult : List Nat → Option Nat) (n : Nat)
    (hn : sendResult (encrypt (write_to_buf dst ++ payload)) = some n) :
    ((relay_l2r encrypt dst payload sendResult).1 = .ok
      ↔ n = (encrypt (write_to_buf dst ++ payload)).length)
    ∧ (n ≠ (encrypt (write_to_buf dst ++ payload)).length
      → (relay_l2r encrypt dst payload sendResult).1 = .panicShortSend) := by
  simp only [relay_l2r, hn]
  by_cases h : (encrypt (write_to_buf dst ++ payload)).length = n
  · subst h
    simp
  · rw [if_neg h]
    constructor
    · constructor
      · intro hh
        simp at hh
      · intro hh
        exact absurd hh.symm h
    · intro _
      rfl

theorem relay_l2r_full_send_witness :
    ((relay_l2r (fun b => b) (.domain [1] 5) [2] (fun _ => some 3)).1 = .ok
      ↔ 3 = ((fun (b : List Nat) => b) (write_to_buf (.domain [1] 5) ++ [2])).length)
    ∧ (3 ≠ ((fun (b : List Nat) => b) (write_to_buf (.domain [1] 5) ++ [2])).length
      → (relay_l2r (fun b => b) (.domain [1] 5) [2] (fun _ => some 3)).1
          = .panicShortSend) :=
  relay_l2r_full_send (fun b => b) (.domain [1] 5) [2] (fun _ => some 3) 3 rfl

/-- C3: given a successfully received reply frame that decrypts to
`ADDRESS || RAW_PAYLOAD`, the reply task hands exactly `RAW_PAYLOAD` (the
address field stripped) to the reply-side send, targeted at the original
source address. -/
theorem relay_r2l_strips_address (src : SockAddr) (A : Address) (P recvRaw : List Nat)
    (decrypt : List Nat → Option (Option (List Nat))) (localSendOk : Bool)
    (hv : A.validb = true)
    (hdec : decrypt recvRaw = some (some (write_to_buf A ++ P))) :
    sentBytes (relay_r2l src (some recvRaw) decrypt localSendOk) = some (P, src) := by
  obtain ⟨A2, hread⟩ := read_from_write_to_buf A hv P
  simp only [relay_r2l, hdec, hread]
  cases localSendOk <;> simp [sentBytes]

theorem relay_r2l_strips_address_witness :
    sentBytes (relay_r2l (.v4 10 0 0 1 5353) (some [99])
      (fun _ => some (some (write_to_buf (.socket (.v4 1 2 3 4 53)) ++ [42, 43])))
      true) = some ([42, 43], .v4 10 0 0 1 5353) :=
  relay_r2l_strips_address (.v4 10 0 0 1 5353) (.socket (.v4 1 2 3 4 53)) [42, 43] [99]
    (fun _ => some (some (write_to_buf (.socket (.v4 1 2 3 4 53)) ++ [42, 43]))) true
    rfl rfl

/-- C4: a zero-length datagram is discarded silently: the ingress state is
returned unchanged (no association looked up, created or touched) and no
event occurs (no factory invocation, no enqueue). -/
theorem zero_length_discarded (factoryOk : Bool) (st : IngressState) (src dst : SockAddr)
    (now : Nat) :
    ingressStep factoryOk st (.datagram src dst [] now) = .next st [] := by
  simp [ingressStep]

/-- C7: if association creation fails on a cache miss, the `.expect(..)` makes
the iteration fatal, and the whole relay loop dies: no later datagram — of
this flow or any other — is processed, and no event is produced. -/
theorem creation_failure_fatal (st : IngressState) (src dst : SockAddr)
    (payload : List Nat) (now : Nat) (env : Nat → Bool)
    (hp : payload ≠ [])
    (hmiss : lookupLive st.timeout now st.entries (cache_key src dst) = none)
    (henv : env st.factoryCount = false) :
    ingressStep (env st.factoryCount) st (.datagram src dst payload now) = .fatal
    ∧ ∀ rest : List LoopInput,
        runLoop env st (.datagram src dst payload now :: rest) = .died [] := by
  have hlen : ¬payload.length = 0 := by
    simpa [List.length_eq_zero] using hp
  have hstep : ingressStep false st (.datagram src dst payload now) = .fatal := by
    simp [ingressStep, hlen, hmiss]
  refine ⟨henv ▸ hstep, fun rest => ?_⟩
  simp only [runLoop, henv, hstep]

theorem creation_failure_fatal_witness :
    (ingressStep ((fun _ => false) (IngressState.mk 30 [] 0 0).factoryCount)
        ⟨30, [], 0, 0⟩ (.datagram (.v4 1 1 1 1 10) (.v4 2 2 2 2 20) [5] 0) = .fatal)
    ∧ runLoop (fun _ => false) ⟨30, [], 0, 0⟩
        (.datagram (.v4 1 1 1 1 10) (.v4 2 2 2 2 20) [5] 0 :: [.timeoutTick 99])
        = .died [] :=
  ⟨(creation_failure_fatal ⟨30, [], 0, 0⟩ (.v4 1 1 1 1 10) (.v4 2 2 2 2 20) [5] 0
      (fun _ => false) (by simp) rfl rfl).1,
   (creation_failure_fatal ⟨30, [], 0, 0⟩ (.v4 1 1 1 1 10) (.v4 2 2 2 2 20) [5] 0
      (fun _ => false) (by simp) rfl rfl).2 [.timeoutTick 99]⟩

/-- C10: in every channel state reachable from an association's creation, the
egress task's receiver is open as long as any sender handle is alive; hence
`UdpAssociation::send` through a held handle takes the success branch and the
`unreachable!` branch is dead. -/
theorem send_through_held_handle_never_panics (s : ChanState) (pkt : List Nat)
    (hr : ChanReachable s) (hs : 1 ≤ s.senders) :
    (UdpAssociation.send s pkt).1 = .sent := by
  have hinv : ∀ t, ChanReachable t → (t.receiverOpen = false → t.senders = 0) := by
    intro t ht
    induction ht with
    | init => intro h; exact absurd h (by simp)
    | step ha hstep ih =>
      cases hstep with
      | clone s r q =>
        intro h
        simp only at h
        have := ih h
        simp at this
      | dropSender s r q =>
        intro h
        have := ih h
        simp at this
      | send s q pkt2 =>
        intro h
        simp at h
      | recv s q pkt2 =>
        intro h
        simp at h
      | recvNoneClose =>
        intro _
        rfl
  have hopen : s.receiverOpen = true := by
    cases hro : s.receiverOpen
    · have := hinv s hr hro
      omega
    · rfl
  simp [UdpAssociation.send, hopen]

theorem send_through_held_handle_never_panics_witness :
    (UdpAssociation.send ⟨1, true, []⟩ [9]).1 = .sent :=
  send_through_held_handle_never_panics ⟨1, true, []⟩ [9] ChanReachable.init
    (by norm_num)

/-- C9: the reply task never terminates of its own accord: after any number of
rounds, under any per-round environment — including persistently failing
receives, decrypts or sends — it is still running precisely when the shutdown
watcher has not fired in any earlier round. -/
theorem reply_task_runs_until_fired (src dst : SockAddr) (timeout : Nat)
    (envs : Nat → ReplyEnv) (fired : Nat → Bool) (entries0 : List CEntry) (n : Nat) :
    (replyTask src dst timeout envs fired entries0 n).1 = true
      ↔ ∀ k < n, fired k = false := by
  induction n with
  | zero => simp [replyTask]
  | succ n ih =>
    rcases hrt : replyTask src dst timeout envs fired entries0 n with ⟨running, entries⟩
    rw [hrt] at ih
    simp only [replyTask, hrt]
    cases running with
    | false =>
      simp only [Bool.false_eq_true, false_iff] at ih ⊢
      intro hall
      exact ih (fun k hk => hall k (by omega))
    | true =>
      simp only [true_iff] at ih
      cases hf : fired n with
      | false =>
        simp only [Bool.false_eq_true, if_false]
        constructor
        · intro _ k hk
          rcases Nat.lt_succ_iff_lt_or_eq.mp hk with h1 | rfl
          · exact ih k h1
          · exact hf
        · intro _
          trivial
      | true =>
        simp only [if_true]
        constructor
        · intro hh
          simp at hh
        · intro hall
          have := hall n (Nat.lt_succ_self n)
          rw [hf] at this
          simp at this

/-- C5: when decryption fails because the received buffer is shorter than the
minimum valid ciphertext, the reply iteration yields the logged
`errTooShort`, the flow's cache entry is nonetheless refreshed for that
iteration, and the loop is not broken: a running task whose watcher has not
fired is still running after the round. -/
theorem short_ciphertext_keeps_flow (src dst : SockAddr) (timeout : Nat)
    (env : ReplyEnv) (entries : List CEntry) (buf : List Nat) (id : Nat)
    (hbuf : env.recvResult = some buf)
    (hdec : env.decrypt buf = some none)
    (hlive : lookupLive timeout env.now entries (cache_key src dst) = some id) :
    (replyIteration src dst timeout env entries).1 = .errTooShort
    ∧ (replyIteration src dst timeout env entries).2
        = touchKey env.now entries (cache_key src dst)
    ∧ ∀ (envs : Nat → ReplyEnv) (fired : Nat → Bool) (e0 : List CEntry) (n : Nat),
        fired n = false → (replyTask src dst timeout envs fired e0 n).1 = true →
        (replyTask src dst timeout envs fired e0 (n + 1)).1 = true := by
  refine ⟨?_, ?_, ?_⟩
  · simp [replyIteration, relay_r2l, hbuf, hdec]
  · simp [replyIteration, cacheGet, hlive]
  · intro envs fired e0 n hf hrun
    rcases hrt : replyTask src dst timeout envs fired e0 n with ⟨running, entries2⟩
    rw [hrt] at hrun
    simp only at hrun
    subst hrun
    simp [replyTask, hrt, hf]

theorem short_ciphertext_keeps_flow_witness :
    ((replyIteration (.v4 9 9 9 9 1) (.v4 8 8 8 8 2) 30
        ⟨some [1], fun _ => some none, true, 5⟩
        [⟨cache_key (.v4 9 9 9 9 1) (.v4 8 8 8 8 2), 0, 0⟩]).1 = .errTooShort)
    ∧ ((replyIteration (.v4 9 9 9 9 1) (.v4 8 8 8 8 2) 30
        ⟨some [1], fun _ => some none, true, 5⟩
        [⟨cache_key (.v4 9 9 9 9 1) (.v4 8 8 8 8 2), 0, 0⟩]).2
        = touchKey 5 [⟨cache_key (.v4 9 9 9 9 1) (.v4 8 8 8 8 2), 0, 0⟩]
            (cache_key (.v4 9 9 9 9 1) (.v4 8 8 8 8 2)))
    ∧ ((replyTask (.v4 9 9 9 9 1) (.v4 8 8 8 8 2) 30
          (fun _ => ⟨none, fun _ => none, true, 0⟩) (fun _ => false) [] (0 + 1)).1
        = true) :=
  ⟨(short_ciphertext_keeps_flow (.v4 9 9 9 9 1) (.v4 8 8 8 8 2) 30
      ⟨some [1], fun _ => some none, true, 5⟩
      [⟨cache_key (.v4 9 9 9 9 1) (.v4 8 8 8 8 2), 0, 0⟩] [1] 0 rfl rfl (by
        unfold lookupLive
        rw [List.find?_cons_of_pos _ (by simp)])).1,
   (short_ciphertext_keeps_flow (.v4 9 9 9 9 1) (.v4 8 8 8 8 2) 30
      ⟨some [1], fun _ => some none, true, 5⟩
      [⟨cache_key (.v4 9 9 9 9 1) (.v4 8 8 8 8 2), 0, 0⟩] [1] 0 rfl rfl (by
        unfold lookupLive
        rw [List.find?_cons_of_pos _ (by simp)])).2.1,
   (short_ciphertext_keeps_flow (.v4 9 9 9 9 1) (.v4 8 8 8 8 2) 30
      ⟨some [1], fun _ => some none, true, 5⟩
      [⟨cache_key (.v4 9 9 9 9 1) (.v4 8 8 8 8 2), 0, 0⟩] [1] 0 rfl rfl (by
        unfold lookupLive
        rw [List.find?_cons_of_pos _ (by simp)])).2.2
     (fun _ => ⟨none, fun _ => none, true, 0⟩) (fun _ => false) [] 0 rfl rfl⟩

/-! ### C1 infrastructure: same-flow bursts -/

/-- Same-flow datagram inputs, as (payload, arrival time) pairs. -/
def toInputs (src dst : SockAddr) (ps : List (List Nat × Nat)) : List LoopInput :=
  ps.map (fun q => .datagram src dst q.1 q.2)

/-- Arrival times are nondecreasing and every gap from the previous arrival
(starting at `prev`) stays inside the idle window. -/
def timesOkb (timeout : Nat) : Nat → List (List Nat × Nat) → Bool
  | _, [] => true
  | prev, q :: rest =>
      decide (prev ≤ q.2) && decide (q.2 - prev < timeout) && timesOkb timeout q.2 rest

/-- The last arrival time of the burst, `dflt` when it is empty. -/
def lastTime (ps : List (List Nat × Nat)) (dflt : Nat) : Nat :=
  (ps.map Prod.snd).getLastD dflt

theorem countFactory_enqueues (aId : Nat) (ps : List (List Nat × Nat)) :
    countFactory (ps.map (fun q => .enqueued aId q.1)) = 0 := by
  induction ps with
  | nil => rfl
  | cons q rest ih => simpa [countFactory, List.filter] using ih

/-- While the flow's entry is live, every datagram of the flow hits the cache:
the association is reused, the entry refreshed, and no factory call occurs. -/
theorem runLoop_live_entry (timeout : Nat) (src dst : SockAddr) (env : Nat → Bool)
    (id nid fc : Nat) (ps : List (List Nat × Nat)) :
    ∀ last : Nat, timesOkb timeout last ps = true → (∀ q ∈ ps, q.1 ≠ ([] : List Nat)) →
    runLoop env ⟨timeout, [⟨cache_key src dst, id, last⟩], nid, fc⟩ (toInputs src dst ps)
      = .finished ⟨timeout, [⟨cache_key src dst, id, lastTime ps last⟩], nid, fc⟩
          (ps.map (fun q => .enqueued id q.1)) := by
  induction ps with
  | nil =>
    intro last _ _
    rfl
  | cons q rest ih =>
    intro last hts hpay
    obtain ⟨p, t⟩ := q
    simp only [timesOkb, Bool.and_eq_true, decide_eq_true_eq] at hts
    obtain ⟨⟨hle, hlt⟩, hts2⟩ := hts
    have hpne : p ≠ [] := hpay (p, t) (List.mem_cons_self _ _)
    have hlen : ¬p.length = 0 := by simpa [List.length_eq_zero] using hpne
    have hlook : lookupLive timeout t [⟨cache_key src dst, id, last⟩] (cache_key src dst)
        = some id := by
      unfold lookupLive
      rw [List.find?_cons_of_pos _ (by simp [hlt])]
    have hstep : ingressStep (env fc) ⟨timeout, [⟨cache_key src dst, id, last⟩], nid, fc⟩
        (.datagram src dst p t)
        = .next ⟨timeout, [⟨cache_key src dst, id, t⟩], nid, fc⟩ [.enqueued id p] := by
      simp only [ingressStep, hlen, if_false, hlook]
      simp [touchKey]
    simp only [toInputs, List.map_cons]
    simp only [runLoop, hstep]
    have ihr := ih t hts2 (fun q2 hq => hpay q2 (List.mem_cons_of_mem _ hq))
    simp only [toInputs] at ihr
    rw [ihr]
    have hlast : lastTime ((p, t) :: rest) last = lastTime rest t := by
      unfold lastTime
      rw [List.map_cons, List.getLastD_cons]
    rw [hlast]
    simp

/-- C1: starting from an empty cache, a burst of same-flow datagrams whose
gaps stay inside the idle window creates exactly one association (one factory
call, on the first datagram's miss); every later datagram of the burst reuses
it. Moreover, the factory runs only on a cache miss — a live entry is reused
and only refreshed — and no reachable step ever leaves two cache entries for
one flow key. -/
theorem one_association_per_flow (timeout : Nat) (src dst : SockAddr)
    (p1 : List Nat) (t1 : Nat) (rest : List (List Nat × Nat)) (env : Nat → Bool)
    (henv : env 0 = true) (hp1 : p1 ≠ []) (hrest : ∀ q ∈ rest, q.1 ≠ ([] : List Nat))
    (hts : timesOkb timeout t1 rest = true) :
    (runLoop env ⟨timeout, [], 0, 0⟩ (toInputs src dst ((p1, t1) :: rest))
      = .finished ⟨timeout, [⟨cache_key src dst, 0, lastTime rest t1⟩], 1, 1⟩
          (.factoryInvoked (cache_key src dst)
            :: .enqueued 0 p1 :: rest.map (fun q => .enqueued 0 q.1))
      ∧ countFactory (.factoryInvoked (cache_key src dst)
            :: .enqueued 0 p1 :: rest.map (fun q => IngressEvent.enqueued 0 q.1)) = 1)
    ∧ (∀ (b : Bool) (st : IngressState) (src2 dst2 : SockAddr) (pl : List Nat) (t aId : Nat),
        lookupLive st.timeout t st.entries (cache_key src2 dst2) = some aId →
        ingressStep b st (.datagram src2 dst2 pl t)
          = .next (if pl.length = 0 then st
              else { st with entries := touchKey t st.entries (cache_key src2 dst2) })
            (if pl.length = 0 then [] else [.enqueued aId pl]))
    ∧ (∀ (b : Bool) (st : IngressState) (inp : LoopInput) (st2 : IngressState)
          (evs : List IngressEvent),
        (st.entries.map CEntry.key).Nodup →
        ingressStep b st inp = .next st2 evs → (st2.entries.map CEntry.key).Nodup) := by
  refine ⟨⟨?_, ?_⟩, ?_, ?_⟩
  · have hlen1 : ¬p1.length = 0 := by simpa [List.length_eq_zero] using hp1
    have hstep : ingressStep (env 0) ⟨timeout, [], 0, 0⟩ (.datagram src dst p1 t1)
        = .next ⟨timeout, [⟨cache_key src dst, 0, t1⟩], 1, 1⟩
            [.factoryInvoked (cache_key src dst), .enqueued 0 p1] := by
      rw [henv]
      simp only [ingressStep, hlen1, if_false]
      have hlook : lookupLive 0 t1 [] (cache_key src dst) = none := rfl
      simp [lookupLive, insertFresh, List.find?]
    simp only [toInputs, List.map_cons]
    simp only [runLoop, hstep]
    have ihr := runLoop_live_entry timeout src dst env 0 1 1 rest t1 hts hrest
    simp only [toInputs] at ihr
    rw [ihr]
    rfl
  · simp only [countFactory, List.filter]
    have h0 := countFactory_enqueues 0 rest
    simp only [countFactory] at h0
    simp [h0]
  · intro b st src2 dst2 pl t aId hlook
    by_cases hl : pl.length = 0
    · have hpl : pl = [] := List.length_eq_zero.mp hl
      subst hpl
      simp [ingressStep]
    · simp [ingressStep, hl, hlook]
  · intro b st inp st2 evs hnd hstep
    cases inp with
    | timeoutTick now =>
      simp only [ingressStep, StepResult.next.injEq] at hstep
      obtain ⟨rfl, _⟩ := hstep
      exact hnd.sublist ((List.filter_sublist _).map CEntry.key)
    | datagram src2 dst2 pl now =>
      by_cases hl : pl.length = 0
      · simp only [ingressStep, hl, if_true, StepResult.next.injEq] at hstep
        obtain ⟨rfl, _⟩ := hstep
        exact hnd
      · simp only [ingressStep, hl, if_false] at hstep
        cases hlk : lookupLive st.timeout now st.entries (cache_key src2 dst2) with
        | some aId =>
          rw [hlk] at hstep
          simp only [StepResult.next.injEq] at hstep
          obtain ⟨rfl, _⟩ := hstep
          have hkeys : (touchKey now st.entries (cache_key src2 dst2)).map CEntry.key
              = st.entries.map CEntry.key := by
            unfold touchKey
            rw [List.map_map]
            apply List.map_congr_left
            intro e _
            simp only [Function.comp_apply]
            split_ifs <;> rfl
          simpa [hkeys] using hnd
        | none =>
          rw [hlk] at hstep
          cases hb : b with
          | false =>
            rw [hb] at hstep
            simp at hstep
          | true =>
            rw [hb] at hstep
            simp only [if_true, StepResult.next.injEq] at hstep
            obtain ⟨rfl, _⟩ := hstep
            simp only [insertFresh, List.map_cons, List.nodup_cons]
            constructor
            · intro hmem
              rcases List.mem_map.mp hmem with ⟨e, he, hkey⟩
              have h1 := List.of_mem_filter he
              have h2 : e.key ≠ cache_key src2 dst2 := by
                simpa using h1
              exact h2 hkey
            · exact hnd.sublist ((List.filter_sublist _).map CEntry.key)

theorem one_association_per_flow_witness :
    ((runLoop (fun _ => true) ⟨30, [], 0, 0⟩
        (toInputs (.v4 9 9 9 9 1) (.v4 8 8 8 8 2) [([1], 0), ([2], 10)])
      = .finished ⟨30, [⟨cache_key (.v4 9 9 9 9 1) (.v4 8 8 8 8 2), 0,
            lastTime [([2], 10)] 0⟩], 1, 1⟩
          (.factoryInvoked (cache_key (.v4 9 9 9 9 1) (.v4 8 8 8 8 2))
            :: .enqueued 0 [1] :: [([2], 10)].map (fun q => .enqueued 0 q.1))
      ∧ countFactory (.factoryInvoked (cache_key (.v4 9 9 9 9 1) (.v4 8 8 8 8 2))
            :: .enqueued 0 [1]
            :: [([2], 10)].map (fun q => IngressEvent.enqueued 0 q.1)) = 1)
    ∧ ingressStep true ⟨30, [⟨cache_key (.v4 9 9 9 9 1) (.v4 8 8 8 8 2), 5, 0⟩], 6, 1⟩
        (.datagram (.v4 9 9 9 9 1) (.v4 8 8 8 8 2) [3] 7)
        = .next (if ([3] : List Nat).length = 0
            then ⟨30, [⟨cache_key (.v4 9 9 9 9 1) (.v4 8 8 8 8 2), 5, 0⟩], 6, 1⟩
            else ⟨30, touchKey 7 [⟨cache_key (.v4 9 9 9 9 1) (.v4 8 8 8 8 2), 5, 0⟩]
                  (cache_key (.v4 9 9 9 9 1) (.v4 8 8 8 8 2)), 6, 1⟩)
          (if ([3] : List Nat).length = 0 then [] else [.enqueued 5 [3]])
    ∧ (((⟨30, [], 0, 0⟩ : IngressState).entries.map CEntry.key).Nodup)) :=
  ⟨(one_association_per_flow 30 (.v4 9 9 9 9 1) (.v4 8 8 8 8 2) [1] 0 [([2], 10)]
      (fun _ => true) rfl (by decide) (by decide) (by decide)).1,
   (one_association_per_flow 30 (.v4 9 9 9 9 1) (.v4 8 8 8 8 2) [1] 0 [([2], 10)]
      (fun _ => true) rfl (by decide) (by decide) (by decide)).2.1 true
     ⟨30, [⟨cache_key (.v4 9 9 9 9 1) (.v4 8 8 8 8 2), 5, 0⟩], 6, 1⟩
     (.v4 9 9 9 9 1) (.v4 8 8 8 8 2) [3] 7 5 (by
        unfold lookupLive
        rw [List.find?_cons_of_pos _ (by simp)]),
   (one_association_per_flow 30 (.v4 9 9 9 9 1) (.v4 8 8 8 8 2) [1] 0 [([2], 10)]
      (fun _ => true) rfl (by decide) (by decide) (by decide)).2.2 true
     ⟨30, [], 0, 0⟩ (.timeoutTick 1) ⟨30, [], 0, 0⟩ [] (by simp) rfl⟩

end RedirLocal
